import Mathlib

/-!
Shallow embedding of the core of the MeTTa small-step interpreter
(`lib/src/metta/interpreter.rs`) together with the atom data model and
knowledge-base container (`rust/src/lib.rs`).

The atom model, the knowledge base `query`, and every function of
`interpreter.rs` are translated directly from the source.  The parts of the
repository the interpreter consumes but whose source files are not available
here (the plan algebra `common/plan.rs`, the pattern matcher
`atom/matcher.rs`, and the subexpression stream `atom/subexpr.rs`) are
modelled from the specification; each such definition carries a doc comment
saying so.  Rust panics are represented by distinguished error values whose
message starts with "panic:".
-/

/-- Atom, translated from `rust/src/lib.rs` `enum Atom`.  A `Grounded` atom
is an opaque host value; we represent it by an identity (used for structural
equality, mirroring `GroundedAtom::eq`) and its display string, while its
executable behaviour is supplied externally through a `GroundedEnv`. -/
inductive Atom where
| Symbol (symbol : String)
| Expression (children : List Atom)
| Variable (name : String)
| Grounded (id : Nat) (disp : String)
deriving Repr

/-- Executable behaviour of grounded atoms: `execute(args)` keyed by the
grounded value's identity, returning atoms or an error message. -/
def GroundedEnv : Type := Nat → List Atom → Except String (List Atom)

/-- Bindings, translated from `rust/src/lib.rs` `type Bindings =
HashMap<VariableAtom, Atom>`, represented as an association list with unique
keys (the HashMap iteration order is unspecified in Rust; the list order
plays no observable role in the claims below). -/
abbrev Bindings : Type := List (String × Atom)

/-- Lookup of a variable in a bindings map. -/
def lookupB (b : Bindings) (v : String) : Option Atom :=
  ((List.find? (fun p => p.1 == v) b)).map (·.2)

/-- Removal of a key, as `HashMap::remove`. -/
def removeB (b : Bindings) (v : String) : Bindings :=
  List.filter (fun p => p.1 != v) b

/-- Insertion of a key, as `HashMap::insert`: replaces the value when the
key is present, appends otherwise. -/
def insertB (b : Bindings) (k : String) (v : Atom) : Bindings :=
  if (lookupB b k).isSome then
    List.map (fun p => if p.1 == k then (k, v) else p) b
  else
    b ++ [(k, v)]

/-- Insert every entry of `src` into `dst`, as the `drain().for_each(insert)`
idiom of `match_op`. -/
def insertAllB (dst : Bindings) (src : Bindings) : Bindings :=
  List.foldl (fun acc p => insertB acc p.1 p.2) dst src

mutual
/-- Structural equality of atoms, translated from `impl PartialEq for Atom`
in `rust/src/lib.rs` (grounded atoms compare by `GroundedAtom::eq`, which we
model as equality of identity and display). -/
def atomEqb : Atom → Atom → Bool
| .Symbol s1, .Symbol s2 => s1 == s2
| .Variable v1, .Variable v2 => v1 == v2
| .Grounded i1 d1, .Grounded i2 d2 => i1 == i2 && d1 == d2
| .Expression cs1, .Expression cs2 => listEqb cs1 cs2
| _, _ => false
def listEqb : List Atom → List Atom → Bool
| [], [] => true
| a :: as, b :: bs => atomEqb a b && listEqb as bs
| _, _ => false
end

mutual
/-- Modelled from the spec: `apply(atom, B)` substitutes every variable
occurrence by its mapped atom, recursively; unmapped variables remain
(`apply_bindings_to_atom` of the missing `atom/matcher.rs`). -/
def apply_bindings_to_atom : Atom → Bindings → Atom
| .Symbol s, _ => .Symbol s
| .Grounded i d, _ => .Grounded i d
| .Variable v, b =>
  match lookupB b v with
  | some t => t
  | none => .Variable v
| .Expression cs, b => .Expression (applyBindingsToList cs b)
def applyBindingsToList : List Atom → Bindings → List Atom
| [], _ => []
| a :: as, b => apply_bindings_to_atom a b :: applyBindingsToList as b
end

/-- Modelled from the spec: `merge(B1, B2)` is union; on key collision it
fails unless the two values are structurally equal. -/
def mergeB (b1 : Bindings) (b2 : Bindings) : Option Bindings :=
  List.foldl
    (fun acc p =>
      acc.bind (fun m =>
        match lookupB m p.1 with
        | some v' => if atomEqb v' p.2 then some m else none
        | none => some (insertB m p.1 p.2)))
    (some b1) b2

/-- Modelled from the spec: `apply(B1, B2)` substitutes right-hand sides of
`B1` by `B2` and returns a merged mapping, or fails if merging produces a
conflict (`apply_bindings_to_bindings` of the missing `atom/matcher.rs`). -/
def apply_bindings_to_bindings (b1 : Bindings) (b2 : Bindings) : Option Bindings :=
  mergeB b2 (List.map (fun p => (p.1, apply_bindings_to_atom p.2 b2)) b1)

mutual
/-- Variables occurring in an atom, in left-to-right order. -/
def atomVars : Atom → List String
| .Symbol _ => []
| .Grounded _ _ => []
| .Variable v => [v]
| .Expression cs => listVars cs
def listVars : List Atom → List String
| [] => []
| a :: as => atomVars a ++ listVars as
end

mutual
/-- Textual rendering of an atom, translated from `impl Display for Atom` in
`rust/src/lib.rs`, which delegates to the derived `Debug` formatting; for a
grounded atom the derived `Debug` prints `Grounded(...)` around the grounded
value's own display string. -/
def atomDisplay : Atom → String
| .Symbol s => "Symbol \x7b symbol: \"" ++ s ++ "\" \x7d"
| .Variable v => "Variable(VariableAtom \x7b name: \"" ++ v ++ "\" \x7d)"
| .Grounded _ d => "Grounded(" ++ d ++ ")"
| .Expression cs => "Expression(ExpressionAtom \x7b children: [" ++ listDisplay cs ++ "] \x7d)"
def listDisplay : List Atom → String
| [] => ""
| [a] => atomDisplay a
| a :: a' :: as => atomDisplay a ++ ", " ++ listDisplay (a' :: as)
end

/-- Whether an atom is an expression. -/
def isExprB : Atom → Bool
| .Expression _ => true
| _ => false

/-- Translated from `ExpressionAtom::is_plain` in `rust/src/lib.rs`: no
child is itself an expression. -/
def is_plain (cs : List Atom) : Bool :=
  cs.all (fun a => !(isExprB a))

/-- Translated from `is_grounded` in `interpreter.rs`: the first child is a
`Grounded` atom. -/
def is_grounded (cs : List Atom) : Bool :=
  match cs.head? with
  | some (.Grounded _ _) => true
  | _ => false

mutual
/-- Modelled from the spec: the pattern matcher (`match_atoms` of the
missing `atom/matcher.rs`) matches one atom against another and returns a
candidate binding set per side, `(a_bindings, b_bindings)`: variables of the
pattern (right argument) are bound in the second component, variables of the
stored atom (left argument) in the first; mismatching shapes fail. -/
def matchAtoms : Atom → Atom → Option (Bindings × Bindings)
| stored, .Variable v => some ([], [(v, stored)])
| .Variable v, pat => some ([(v, pat)], [])
| .Symbol s, .Symbol t => if s == t then some ([], []) else none
| .Grounded i d, .Grounded j e =>
  if i == j && d == e then some ([], []) else none
| .Expression cs, .Expression ps => matchLists cs ps
| _, _ => none
def matchLists : List Atom → List Atom → Option (Bindings × Bindings)
| [], [] => some ([], [])
| a :: as, b :: bs =>
  match matchAtoms a b with
  | none => none
  | some (x, y) =>
    match matchLists as bs with
    | none => none
    | some (x', y') =>
      match mergeB x x' with
      | none => none
      | some mx =>
        match mergeB y y' with
        | none => none
        | some my => some (mx, my)
| _, _ => none
end

/-- Knowledge-base container, translated from `rust/src/lib.rs`
`struct GroundingSpace`. -/
structure GroundingSpace where
  content : List Atom

/-- Translated from `GroundingSpace::add`: push the atom at the end. -/
def GroundingSpace.add (s : GroundingSpace) (a : Atom) : GroundingSpace :=
  ⟨s.content ++ [a]⟩

/-- Translated from `GroundingSpace::query`: match every stored atom against
the pattern and collect the pattern-side bindings of each successful match,
in storage order. -/
def GroundingSpace.query (s : GroundingSpace) (pattern : Atom) : List Bindings :=
  s.content.filterMap (fun next => (matchAtoms next pattern).map (·.2))

/-- Atom stored at a path of child indices (the focus of a cursor). -/
def getAt : Atom → List Nat → Atom
| a, [] => a
| .Expression cs, i :: p =>
  match cs.get? i with
  | some c => getAt c p
  | none => .Expression cs
| a, _ :: _ => a

/-- Replace the atom at a path of child indices, returning the new root. -/
def setAt : Atom → List Nat → Atom → Atom
| _, [], b => b
| .Expression cs, i :: p, b =>
  match cs.get? i with
  | some c => .Expression (cs.set i (setAt c p b))
  | none => .Expression cs
| a, _ :: _, _ => a

mutual
/-- Modelled from the spec: paths of every sub-expression of an atom in
post-order (bottom-up depth walk order), the root expression last. -/
def exprPaths : Atom → List (List Nat)
| .Expression cs => exprPathsList cs 0 ++ [[]]
| _ => []
def exprPathsList : List Atom → Nat → List (List Nat)
| [], _ => []
| a :: as, i => (exprPaths a).map (fun p => i :: p) ++ exprPathsList as (i + 1)
end

/-- Scanning loop shared by the sibling walks: starting from index `idx`,
find the first child below index `stop` that is an expression.  The
`countdown` argument makes the recursion structural; it is always called
with `countdown = stop - idx`, reproducing the Rust `while idx < stop`
loop. -/
def findSiblingGo (cs : List Atom) (stop : Nat) : Nat → Nat → Option (Nat × Atom)
| _, 0 => none
| idx, countdown + 1 =>
  if idx < stop then
    match cs.get? idx with
    | some c => if isExprB c then some (idx, c) else findSiblingGo cs stop (idx + 1) countdown
    | none => none
  else none

/-- Entry point of the sibling scanning loop. -/
def findSiblingLoop (cs : List Atom) (stop : Nat) (idx : Nat) : Option (Nat × Atom) :=
  findSiblingGo cs stop idx (stop - idx)

/-- Translated from `find_next_sibling_skip_last` in `interpreter.rs`:
scan the children from the current index of the `level` entry of the focus
stack, stopping before the last child (`idx < len - 1`); on a hit store
`idx + 1` back into the stack and yield the child; otherwise pop the stack
and yield nothing. -/
def find_next_sibling_skip_last (levels : List Nat) (cs : List Atom) (level : Nat) :
    List Nat × Option Atom :=
  match findSiblingLoop cs (cs.length - 1) (levels.getD level 0) with
  | some (i, child) => (levels.set level (i + 1), some child)
  | none => (levels.dropLast, none)

/-- Modelled from the spec: the find-next-sibling walk yields immediate
children that are themselves expressions, left to right; identical to the
skip-last variant except that the last child is also eligible. -/
def find_next_sibling (levels : List Nat) (cs : List Atom) (level : Nat) :
    List Nat × Option Atom :=
  match findSiblingLoop cs cs.length (levels.getD level 0) with
  | some (i, child) => (levels.set level (i + 1), some child)
  | none => (levels.dropLast, none)

/-- Walk strategies of the subexpression cursor (spec section 3). -/
inductive WalkKind where
| bottomUp
| findNextSibling
| skipLast
deriving Repr

/-- Modelled from the spec: the subexpression cursor holds an expression
root, a focus stack of child indices, and the path of the current focus.
For the two sibling walks the stack has a single level; for the bottom-up
walk the single stack entry counts positions of the post-order enumeration
`exprPaths`. -/
structure SubexprStream where
  root : Atom
  walk : WalkKind
  levels : List Nat
  focusPath : List Nat
deriving Repr

/-- Modelled from the spec: `SubexprStream::from_expr`. -/
def SubexprStream.fromExpr (root : Atom) (walk : WalkKind) : SubexprStream :=
  ⟨root, walk, [0], []⟩

/-- Record the focus position after a successful sibling step (the walk
stored `idx + 1`, so the focus is at `idx`). -/
def SubexprStream.withSibling (s : SubexprStream) (levels' : List Nat) (o : Option Atom) :
    SubexprStream :=
  match o with
  | some _ => { s with levels := levels', focusPath := [(levels'.getD 0 1) - 1] }
  | none => { s with levels := levels' }

/-- Modelled from the spec: `SubexprStream::next` advances to the next
sub-expression in the stream's walk order and yields it. -/
def SubexprStream.next (s : SubexprStream) : SubexprStream × Option Atom :=
  match s.walk with
  | .bottomUp =>
    let ps := exprPaths s.root
    let k := s.levels.getD 0 0
    match ps.get? k with
    | some path => ({ s with levels := [k + 1], focusPath := path }, some (getAt s.root path))
    | none => ({ s with levels := [] }, none)
  | .findNextSibling =>
    match s.root with
    | .Expression cs =>
      if s.levels.isEmpty then (s, none)
      else
        let r := find_next_sibling s.levels cs 0
        (s.withSibling r.1 r.2, r.2)
    | _ => (s, none)
  | .skipLast =>
    match s.root with
    | .Expression cs =>
      if s.levels.isEmpty then (s, none)
      else
        let r := find_next_sibling_skip_last s.levels cs 0
        (s.withSibling r.1 r.2, r.2)
    | _ => (s, none)

/-- Modelled from the spec: write an atom at the focus of the cursor
(`*iter.get_mut() = atom` in the source). -/
def SubexprStream.set (s : SubexprStream) (a : Atom) : SubexprStream :=
  { s with root := setAt s.root s.focusPath a }

/-- Modelled from the spec: the (possibly mutated) root. -/
def SubexprStream.into_atom (s : SubexprStream) : Atom :=
  s.root

/-- Translated from `interpreter.rs`: `type InterpreterResult =
Result<Vec<(Atom, Bindings)>, String>`. -/
abbrev InterpreterResult : Type := Except String (List (Atom × Bindings))

/-- Translated from `merge_ok_results` in `interpreter.rs`: append the step
results after the plan results; the Rust code panics when either side is an
error, which we model by a distinguished error value. -/
def merge_ok_results : InterpreterResult → InterpreterResult → InterpreterResult
| .ok plan_res, .ok step_res => .ok (plan_res ++ step_res)
| _, _ => .error "panic: Error is not expected"

/-- Calls of the statically named rewriter operations of `interpreter.rs`
(the `FunctionPlan` statics), defunctionalised so that a plan is plain
data. -/
inductive OpCall where
| interpretOrDefault (s : GroundingSpace) (a : Atom) (b : Bindings)
| interpret (s : GroundingSpace) (a : Atom) (b : Bindings)
| interpretReducted (s : GroundingSpace) (a : Atom) (b : Bindings)
| reductArgs (s : GroundingSpace) (a : Atom) (b : Bindings)
| matchOp (s : GroundingSpace) (a : Atom) (b : Bindings)
| executeOp (a : Atom) (b : Bindings)
| reductArgByArg (s : GroundingSpace) (iter : SubexprStream) (b : Bindings)

/-- Partially applied rewriter operations (the `PartialApplyPlan` uses in
`interpreter.rs`): they await the `InterpreterResult` of the preceding plan. -/
inductive POpCall where
| interpretResultsFurther (s : GroundingSpace)
| reductNextArg (s : GroundingSpace) (iter : SubexprStream)
| interpretAfterArgReduction (s : GroundingSpace) (iter : SubexprStream)

mutual
/-- Modelled from the spec: the plan algebra of `common/plan.rs`.
`apply` is `ApplyPlan`, `seq` is `SequencePlan` whose second component is
always a `PartialApplyPlan` in the interpreter, `orp` is `OrPlan` with a
`StepResult` fallback, and `parallel` is the fan-out plan produced by
`into_parallel_plan` with its accumulator (the combining function is always
`merge_ok_results` in the interpreter). -/
inductive Plan where
| apply (c : OpCall)
| seq (p : Plan) (q : POpCall)
| orp (p : Plan) (fb : SR)
| parallel (ps : List Plan) (acc : InterpreterResult)
/-- Modelled from the spec: `StepResult` of `common/plan.rs`: a plan still
to execute, a terminal success value, or a terminal error. -/
inductive SR where
| execute (p : Plan)
| ret (v : InterpreterResult)
| error (m : String)
end

/-- Translated from `interpret_or_default_op` in `interpreter.rs`: apply the
bindings to the atom once, then try `interpret`; on error fall back to the
singleton result containing the canonicalised atom. -/
def interpret_or_default_op (space : GroundingSpace) (atom0 : Atom) (bindings : Bindings) : SR :=
  let atom := apply_bindings_to_atom atom0 bindings
  .execute (.orp (.apply (.interpret space atom bindings)) (.ret (.ok [(atom, bindings)])))

/-- Translated from `reduct_arg_by_arg_op` in `interpreter.rs`: take the
next sub-expression under the bottom-up cursor; reduce it and continue with
`interpret_after_arg_reduction`, or (on failure) retry from the advanced
cursor; an exhausted cursor is the error `"No results for reducted found"`. -/
def reduct_arg_by_arg_op (space : GroundingSpace) (iter : SubexprStream) (bindings : Bindings) : SR :=
  match iter.next with
  | (iter', some arg) =>
    .execute (.orp
      (.seq (.apply (.interpretReducted space arg bindings))
            (.interpretAfterArgReduction space iter'))
      (.execute (.apply (.reductArgByArg space iter' bindings))))
  | (_, none) => .error "No results for reducted found"

/-- Translated from `reduct_arg_by_arg_plan` in `interpreter.rs`: start the
arg-by-arg reduction on a bottom-up cursor over the expression; the Rust
code panics on a non-expression argument. -/
def reduct_arg_by_arg_plan (space : GroundingSpace) (expr : Atom) (bindings : Bindings) : SR :=
  match expr with
  | .Expression cs =>
    reduct_arg_by_arg_op space (SubexprStream.fromExpr (.Expression cs) .bottomUp) bindings
  | _ => .error "panic: Atom::Expression is expected as an argument"

/-- Translated from `interpret_op` in `interpreter.rs`: the case split of
the rewriter on the shape of the atom. -/
def interpret_op (space : GroundingSpace) (atom : Atom) (bindings : Bindings) : SR :=
  match atom with
  | .Expression cs =>
    if is_plain cs then
      .execute (.apply (.interpretReducted space (.Expression cs) bindings))
    else
      if is_grounded cs then
        .execute (.apply (.reductArgs space (.Expression cs) bindings))
      else
        .execute (.seq
          (.orp (.apply (.matchOp space (.Expression cs) bindings))
                (reduct_arg_by_arg_plan space (.Expression cs) bindings))
          (.interpretResultsFurther space))
  | other => .ret (.ok [(other, bindings)])

/-- Translated from `interpret_reducted_op` in `interpreter.rs`: apply the
bindings, then either execute (grounded head) or match, feeding the results
through `interpret_results_further`. -/
def interpret_reducted_op (space : GroundingSpace) (atom0 : Atom) (bindings : Bindings) : SR :=
  match apply_bindings_to_atom atom0 bindings with
  | .Expression cs =>
    if is_grounded cs then
      .execute (.seq (.apply (.executeOp (.Expression cs) bindings))
                     (.interpretResultsFurther space))
    else
      .execute (.seq (.apply (.matchOp space (.Expression cs) bindings))
                     (.interpretResultsFurther space))
  | _ => .error "Expression is expected"

/-- Translated from `interpret_results_further_op` in `interpreter.rs`: fan
out `interpret_or_default` over every branch, starting from the empty vector
(an empty input is not an error for this operation); an error input is a
panic in the source. -/
def interpret_results_further_op (space : GroundingSpace) (result : InterpreterResult) : SR :=
  match result with
  | .error _ => .error "panic: Error is not expected here"
  | .ok vec =>
    .execute (.parallel
      (vec.map (fun p => Plan.apply (.interpretOrDefault space p.1 p.2)))
      (.ok []))

/-- Translated from `interpret_after_arg_reduction_op` in `interpreter.rs`:
an empty success is the error `"NOP special case"`; otherwise substitute
each reduced atom into the focus and `interpret_or_default` the rebuilt
expression, fanning out across the results; an error input is a panic in
the source. -/
def interpret_after_arg_reduction_op (space : GroundingSpace) (iter : SubexprStream)
    (reduction_result : InterpreterResult) : SR :=
  match reduction_result with
  | .ok [] => .error "NOP special case"
  | .ok vec =>
    .execute (.parallel
      (vec.map (fun p => Plan.apply (.interpretOrDefault space ((iter.set p.1).into_atom) p.2)))
      (.ok []))
  | .error _ => .error "panic: Only successful results are expected here"

/-- Translated from `reduct_args_op` in `interpreter.rs`: the walk strategy
is skip-last exactly when the textual rendering of the first child equals
`"match"` (the acknowledged hack of the source). -/
def reductArgsWalk (cs : List Atom) : WalkKind :=
  match cs.head? with
  | some h => if atomDisplay h == "match" then .skipLast else .findNextSibling
  | none => .findNextSibling

/-- Translated from `reduct_args_op` in `interpreter.rs`: build the sibling
cursor (strategy chosen by `reductArgsWalk`), take the first sub-expression
and reduce it, continuing with `reduct_next_arg`; the `.expect` on a plain
expression is a panic in the source. -/
def reduct_args_op (space : GroundingSpace) (expr : Atom) (bindings : Bindings) : SR :=
  match expr with
  | .Expression cs =>
    match (SubexprStream.fromExpr (.Expression cs) (reductArgsWalk cs)).next with
    | (iter', some sub) =>
      .execute (.seq (.apply (.interpretOrDefault space sub bindings))
                     (.reductNextArg space iter'))
    | (_, none) => .error "panic: Non plain expression expected"
  | _ => .error ("Atom::Expression is expected as an argument, found: " ++ atomDisplay expr)

/-- Translated from `reduct_next_arg_op` in `interpreter.rs`: for every
reduced argument, write it into the focus; if a further sub-expression
exists, reduce it and repeat, otherwise hand the fully reduced root to
`interpret_reducted`; fan-out across the previous results; an error input
is a panic in the source. -/
def reduct_next_arg_op (space : GroundingSpace) (iter : SubexprStream)
    (prev_result : InterpreterResult) : SR :=
  match prev_result with
  | .error _ => .error "panic: Error is not expected here, because INTERPRET_OR_DEFAULT_OP always returns result"
  | .ok results =>
    .execute (.parallel
      (results.map (fun p =>
        let iter1 := iter.set p.1
        match iter1.next with
        | (iter2, some next_sub) =>
          Plan.seq (.apply (.interpretOrDefault space next_sub p.2)) (.reductNextArg space iter2)
        | (iter2, none) =>
          Plan.apply (.interpretReducted space iter2.into_atom p.2)))
      (.ok []))

/-- Translated from `execute_op` in `interpreter.rs`: call the grounded
value's `execute` on the tail of the expression; each produced atom is
paired with the incoming bindings unchanged. -/
def execute_op (env : GroundedEnv) (atom : Atom) (bindings : Bindings) : SR :=
  match atom with
  | .Expression cs =>
    match cs.head? with
    | some (.Grounded i _) =>
      match env i (cs.drop 1) with
      | .ok vec => .ret (.ok (vec.map (fun a => (a, bindings))))
      | .error msg => .error msg
    | _ => .error ("Trying to execute non grounded atom: " ++ listDisplay cs)
  | _ => .error ("Unexpected non expression argument: " ++ atomDisplay atom)

/-- Translated from `match_op` in `interpreter.rs`: the variable of the
probe is the fixed name `"X"` (the source carries the comment
`// TODO: unique variable?`). -/
def matchProbeVar : String := "X"

/-- Translated from `match_op` in `interpreter.rs`: the probe
`(= expr X)` used to query the knowledge base. -/
def match_probe (expr : Atom) : Atom :=
  .Expression [.Symbol "=", expr, .Variable matchProbeVar]

/-- Translated from the result pipeline of `match_op` in `interpreter.rs`:
for each candidate binding, extract the probe variable's atom, substitute
the remaining binding into it, compose with the previous bindings, discard
conflicting candidates, and re-insert the local binding's entries. -/
def matchResults (localBindings : List Bindings) (prev_bindings : Bindings) :
    List (Atom × Bindings) :=
  localBindings.filterMap (fun binding =>
    match lookupB binding matchProbeVar with
    | none => none
    | some r0 =>
      let binding' := removeB binding matchProbeVar
      let result := apply_bindings_to_atom r0 binding'
      match apply_bindings_to_bindings binding' prev_bindings with
      | none => none
      | some merged => some (result, insertAllB merged binding'))

/-- Translated from `match_op` in `interpreter.rs`: build the surviving
results out of the query's candidate bindings and return them, or the error
`"Match is not found"` when none survive.  The `unwrap` of the probe
variable in the source is a panic when a query result does not bind it; we
model that case by a distinguished error. -/
def matchOpFrom (localBindings : List Bindings) (prev_bindings : Bindings) : SR :=
  if localBindings.all (fun b => (lookupB b matchProbeVar).isSome) then
    let results := matchResults localBindings prev_bindings
    if results.isEmpty then .error "Match is not found" else .ret (.ok results)
  else .error "panic: probe variable is not bound in a query result"

/-- Translated from `match_op` in `interpreter.rs`: the knowledge base is
queried with the probe built by `match_probe`, and the query results are
processed by `matchOpFrom`. -/
def match_op (space : GroundingSpace) (expr : Atom) (prev_bindings : Bindings) : SR :=
  matchOpFrom (space.query (match_probe expr)) prev_bindings

/-- Dispatch of the defunctionalised operation calls to the operations of
`interpreter.rs`; the grounded environment is consumed by `execute_op`
only. -/
def evalOp (env : GroundedEnv) : OpCall → SR
| .interpretOrDefault s a b => interpret_or_default_op s a b
| .interpret s a b => interpret_op s a b
| .interpretReducted s a b => interpret_reducted_op s a b
| .reductArgs s a b => reduct_args_op s a b
| .matchOp s a b => match_op s a b
| .executeOp a b => execute_op env a b
| .reductArgByArg s iter b => reduct_arg_by_arg_op s iter b

/-- Dispatch of the partially applied operation calls. -/
def evalPOp : POpCall → InterpreterResult → SR
| .interpretResultsFurther s, v => interpret_results_further_op s v
| .reductNextArg s iter, v => reduct_next_arg_op s iter v
| .interpretAfterArgReduction s iter, v => interpret_after_arg_reduction_op s iter v

/-- Modelled from the spec: one step of a plan (spec section 4.A).
`apply` invokes its operation; `seq` advances its first plan and, on a
return, feeds the value to the partial operation; `orp` advances its plan,
replacing an error by the fallback; `parallel` advances its first
non-terminal sub-plan, folding returned values into the accumulator with
`merge_ok_results` and returning the accumulator when no sub-plan is
left. -/
def stepPlan (env : GroundedEnv) : Plan → SR
| .apply c => evalOp env c
| .seq p q =>
  match stepPlan env p with
  | .execute p' => .execute (.seq p' q)
  | .ret v => evalPOp q v
  | .error e => .error e
| .orp p fb =>
  match stepPlan env p with
  | .execute p' => .execute (.orp p' fb)
  | .ret v => .ret v
  | .error _ => fb
| .parallel [] acc => .ret acc
| .parallel (p :: ps) acc =>
  match stepPlan env p with
  | .execute p' => .execute (.parallel (p' :: ps) acc)
  | .ret r => .execute (.parallel ps (merge_ok_results acc r))
  | .error e => .error e

/-- Translated from `StepResult::has_next`: only an `Execute` value can be
stepped further. -/
def hasNext : SR → Bool
| .execute _ => true
| _ => false

/-- One tick of the driver: step an `Execute` value, keep a terminal one. -/
def stepOnce (env : GroundedEnv) (s : SR) : SR :=
  match s with
  | .execute p => stepPlan env p
  | t => t

/-- Iterated driver ticks. -/
def loopN (env : GroundedEnv) : Nat → SR → SR
| 0, s => s
| n + 1, s => loopN env n (stepOnce env s)

/-- Translated from `interpret_init` in `interpreter.rs`: the initial plan
applies `interpret_or_default` to the query with empty bindings. -/
def interpret_init (space : GroundingSpace) (expr : Atom) : SR :=
  .execute (.apply (.interpretOrDefault space expr []))

/-- Translated from `interpret_step` in `interpreter.rs`: step a
non-terminal plan; the two terminal cases are panics in the source
(`"Plan execution is finished already"` / `"... with error"`), modelled by
`none`. -/
def interpret_step (env : GroundedEnv) : SR → Option SR
| .execute p => some (stepPlan env p)
| .ret _ => none
| .error _ => none

/-- Translated from `interpret` in `interpreter.rs`: run the driver loop
and project the atoms out of the final results, discarding bindings.  The
source loop may diverge, so the embedding is indexed by fuel: `none` means
the loop has not reached a terminal state within `fuel` ticks. -/
def interpret (env : GroundedEnv) (fuel : Nat) (space : GroundingSpace) (expr : Atom) :
    Option (Except String (List Atom)) :=
  match loopN env fuel (interpret_init space expr) with
  | .execute _ => none
  | .ret (.ok l) => some (.ok (l.map Prod.fst))
  | .ret (.error m) => some (.error m)
  | .error m => some (.error m)

/-- Modelled from the spec: the case split of `interpret` exactly as the
specification words it: a plain expression (no child is itself an
expression) is delegated to `interpret_reducted`; a non-plain expression
whose first child is a `Grounded` atom is delegated to `reduct_args`; any
other expression tries `match` with `reduct_arg_by_arg` as the fallback of
an `Or` plan, feeding the branches through `interpret_results_further`; a
non-expression atom returns the singleton result. -/
def interpretCaseSpec (space : GroundingSpace) (atom : Atom) (bindings : Bindings) : SR :=
  match atom with
  | .Expression cs =>
    if cs.all (fun c => !(isExprB c)) then
      .execute (.apply (.interpretReducted space (.Expression cs) bindings))
    else
      match cs.head? with
      | some (.Grounded _ _) => .execute (.apply (.reductArgs space (.Expression cs) bindings))
      | _ =>
        .execute (.seq
          (.orp (.apply (.matchOp space (.Expression cs) bindings))
                (reduct_arg_by_arg_plan space (.Expression cs) bindings))
          (.interpretResultsFurther space))
  | other => .ret (.ok [(other, bindings)])

/-- Bindings whose mapped atoms mention no variable that is itself a key;
this is the spec's structural invariant on `Bindings` values (section 3),
under which substitution is idempotent. -/
def rangeUnmapped (b : Bindings) : Prop :=
  ∀ p ∈ b, ∀ v ∈ atomVars p.2, (lookupB b v).isNone = true

/-- Reachability of one driver state from another by some number of
ticks. -/
def Reaches (env : GroundedEnv) (s t : SR) : Prop :=
  ∃ n, loopN env n s = t

/-- Knowledge-base equality axiom `(= head r)`. -/
def mkRule (head r : Atom) : Atom :=
  .Expression [.Symbol "=", head, r]

/-- Grounded environment with no executable atoms (mirrors the default
`GroundedAtom::execute` implementation, which errors). -/
def errEnv : GroundedEnv :=
  fun _ _ => .error "not executable"

/-- Grounded environment whose every atom executes to no results (the NOP
grounded atom discussed in the source's comments). -/
def nopEnv : GroundedEnv :=
  fun _ _ => .ok []

/-- Grounded environment whose every atom executes to a single variable
atom. -/
def varEnv : GroundedEnv :=
  fun _ _ => .ok [.Variable "v"]

theorem Atom.myInduction (motive : Atom → Prop)
    (hs : ∀ s, motive (.Symbol s))
    (hv : ∀ v, motive (.Variable v))
    (hg : ∀ i d, motive (.Grounded i d))
    (he : ∀ cs, (∀ a ∈ cs, motive a) → motive (.Expression cs)) : ∀ a, motive a
| .Symbol s => hs s
| .Variable v => hv v
| .Grounded i d => hg i d
| .Expression cs => he cs (fun a ha => Atom.myInduction motive hs hv hg he a)
termination_by a => sizeOf a
decreasing_by
  simp only [Atom.Expression.sizeOf_spec]
  have := List.sizeOf_lt_of_mem ha
  omega

theorem loopN_zero (env : GroundedEnv) (s : SR) : loopN env 0 s = s := rfl

theorem loopN_succ (env : GroundedEnv) (n : Nat) (s : SR) :
    loopN env (n + 1) s = loopN env n (stepOnce env s) := rfl

theorem loopN_add (env : GroundedEnv) (m n : Nat) (s : SR) :
    loopN env (m + n) s = loopN env n (loopN env m s) := by
  induction m generalizing s with
  | zero => simp [loopN]
  | succ m ih =>
    have : m + 1 + n = (m + n) + 1 := by omega
    rw [this, loopN_succ, loopN_succ, ih]

theorem loopN_ret (env : GroundedEnv) (n : Nat) (v : InterpreterResult) :
    loopN env n (.ret v) = .ret v := by
  induction n with
  | zero => rfl
  | succ n ih => rw [loopN_succ]; exact ih

theorem loopN_error (env : GroundedEnv) (n : Nat) (m : String) :
    loopN env n (.error m) = .error m := by
  induction n with
  | zero => rfl
  | succ n ih => rw [loopN_succ]; exact ih

theorem loopN_ret_stable (env : GroundedEnv) {m : Nat} {s : SR} {v : InterpreterResult}
    (h : loopN env m s = .ret v) (k : Nat) :
    loopN env (m + k) s = .ret v := by
  rw [loopN_add, h, loopN_ret]

theorem lookupB_mem {b : Bindings} {v : String} {t : Atom} (h : lookupB b v = some t) :
    (v, t) ∈ b := by
  unfold lookupB at h
  cases hf : List.find? (fun p => p.1 == v) b with
  | none => rw [hf] at h; simp at h
  | some p =>
    rw [hf] at h
    simp only [Option.map_some', Option.some.injEq] at h
    have hm := List.mem_of_find?_eq_some hf
    have hp := List.find?_some hf
    simp only [beq_iff_eq] at hp
    have : p = (v, t) := by
      cases p with
      | mk p1 p2 => simp_all
    rw [← this]
    exact hm

theorem mem_listVars {a : Atom} {cs : List Atom} (ha : a ∈ cs) {v : String}
    (hv : v ∈ atomVars a) : v ∈ listVars cs := by
  induction cs with
  | nil => cases ha
  | cons c cs ih =>
    rw [listVars]
    rcases List.mem_cons.mp ha with h | h
    · subst h; exact List.mem_append_left _ hv
    · exact List.mem_append_right _ (ih h)

theorem applyList_congr {b : Bindings} (cs : List Atom)
    (h : ∀ a ∈ cs, apply_bindings_to_atom a b = a) :
    applyBindingsToList cs b = cs := by
  induction cs with
  | nil => rfl
  | cons a as ih =>
    rw [applyBindingsToList, h a (by simp), ih (fun x hx => h x (List.mem_cons_of_mem _ hx))]

theorem apply_bindings_unbound (b : Bindings) :
    ∀ a, (∀ v ∈ atomVars a, lookupB b v = none) → apply_bindings_to_atom a b = a := by
  intro a
  induction a using Atom.myInduction with
  | hs s => intro _; rfl
  | hg i d => intro _; rfl
  | hv v =>
    intro h
    have : lookupB b v = none := h v (by rw [atomVars]; exact List.mem_singleton.mpr rfl)
    rw [apply_bindings_to_atom, this]
  | he cs ih =>
    intro h
    rw [apply_bindings_to_atom]
    rw [applyList_congr cs (fun a ha => ih a ha (fun v hv => h v (by rw [atomVars]; exact mem_listVars ha hv)))]

theorem apply_bindings_to_atom_empty : ∀ a, apply_bindings_to_atom a [] = a := by
  intro a
  exact apply_bindings_unbound [] a (fun v _ => rfl)

theorem rangeUnmapped_lookup {b : Bindings} (hb : rangeUnmapped b) {v : String} {t : Atom}
    (h : lookupB b v = some t) : ∀ v' ∈ atomVars t, lookupB b v' = none := by
  intro v' hv'
  have := hb (v, t) (lookupB_mem h) v' hv'
  exact Option.isNone_iff_eq_none.mp this

theorem apply_bindings_idem {b : Bindings} (hb : rangeUnmapped b) :
    ∀ a, apply_bindings_to_atom (apply_bindings_to_atom a b) b = apply_bindings_to_atom a b := by
  intro a
  induction a using Atom.myInduction with
  | hs s => rfl
  | hg i d => rfl
  | hv v =>
    rw [apply_bindings_to_atom]
    cases h : lookupB b v with
    | none => rw [apply_bindings_to_atom, h]
    | some t => exact apply_bindings_unbound b t (rangeUnmapped_lookup hb h)
  | he cs ih =>
    rw [apply_bindings_to_atom, apply_bindings_to_atom]
    have : ∀ x ∈ applyBindingsToList cs b,
        apply_bindings_to_atom x b = x := by
      intro x hx
      induction cs with
      | nil => cases hx
      | cons c cs ihc =>
        rw [applyBindingsToList] at hx
        rcases List.mem_cons.mp hx with h | h
        · subst h; exact ih c (by simp)
        · exact ihc (fun a ha => ih a (List.mem_cons_of_mem _ ha)) h
    rw [applyList_congr _ this]

theorem interpret_op_nonexpr {a : Atom} (h : isExprB a = false)
    (s : GroundingSpace) (b : Bindings) :
    interpret_op s a b = .ret (.ok [(a, b)]) := by
  cases a with
  | Expression cs => simp [isExprB] at h
  | Symbol x => rfl
  | Variable x => rfl
  | Grounded i d => rfl

theorem orp_ret (env : GroundedEnv) (fb : SR) :
    ∀ (n : Nat) (p : Plan) (v : InterpreterResult),
    loopN env n (.execute p) = .ret v → loopN env n (.execute (.orp p fb)) = .ret v := by
  intro n
  induction n with
  | zero => intro p v h; simp [loopN] at h
  | succ n ih =>
    intro p v h
    rw [loopN_succ] at h ⊢
    simp only [stepOnce] at h ⊢
    cases hs : stepPlan env p with
    | execute p' =>
      rw [hs] at h
      rw [show stepPlan env (.orp p fb) = .execute (.orp p' fb) by rw [stepPlan, hs]]
      exact ih p' v h
    | ret w =>
      rw [hs, loopN_ret] at h
      rw [show stepPlan env (.orp p fb) = .ret w by rw [stepPlan, hs]]
      rw [loopN_ret]
      exact h
    | error e =>
      rw [hs, loopN_error] at h
      exact absurd h (by simp)

theorem orp_err_fb (env : GroundedEnv) (fb : SR) :
    ∀ (n : Nat) (p : Plan) (e : String),
    loopN env n (.execute p) = .error e →
    ∃ m, loopN env m (.execute (.orp p fb)) = loopN env 0 fb := by
  intro n
  induction n with
  | zero => intro p e h; simp [loopN] at h
  | succ n ih =>
    intro p e h
    rw [loopN_succ] at h
    simp only [stepOnce] at h
    cases hs : stepPlan env p with
    | execute p' =>
      rw [hs] at h
      obtain ⟨m, hm⟩ := ih p' e h
      refine ⟨m + 1, ?_⟩
      rw [Nat.add_comm, loopN_add]
      rw [show loopN env 1 (.execute (.orp p fb)) = .execute (.orp p' fb) by
        rw [loopN_succ, loopN_zero]; simp only [stepOnce]; rw [stepPlan, hs]]
      exact hm
    | ret w =>
      rw [hs, loopN_ret] at h
      exact absurd h (by simp)
    | error e' =>
      refine ⟨1, ?_⟩
      rw [loopN_succ, loopN_zero, loopN_zero]
      simp only [stepOnce]
      rw [stepPlan, hs]

theorem seq_ret (env : GroundedEnv) (q : POpCall) :
    ∀ (n : Nat) (p : Plan) (v : InterpreterResult),
    loopN env n (.execute p) = .ret v →
    ∃ m, loopN env m (.execute (.seq p q)) = evalPOp q v := by
  intro n
  induction n with
  | zero => intro p v h; simp [loopN] at h
  | succ n ih =>
    intro p v h
    rw [loopN_succ] at h
    simp only [stepOnce] at h
    cases hs : stepPlan env p with
    | execute p' =>
      rw [hs] at h
      obtain ⟨m, hm⟩ := ih p' v h
      refine ⟨m + 1, ?_⟩
      rw [Nat.add_comm, loopN_add]
      rw [show loopN env 1 (.execute (.seq p q)) = .execute (.seq p' q) by
        rw [loopN_succ, loopN_zero]; simp only [stepOnce]; rw [stepPlan, hs]]
      exact hm
    | ret w =>
      rw [hs, loopN_ret] at h
      cases h
      refine ⟨1, ?_⟩
      rw [loopN_succ, loopN_zero]
      simp only [stepOnce]
      rw [stepPlan, hs]
    | error e =>
      rw [hs, loopN_error] at h
      exact absurd h (by simp)

theorem par_step (env : GroundedEnv) (ps : List Plan) (acc : InterpreterResult) :
    ∀ (n : Nat) (p : Plan) (r : InterpreterResult),
    loopN env n (.execute p) = .ret r →
    ∃ m, loopN env m (.execute (.parallel (p :: ps) acc)) =
      .execute (.parallel ps (merge_ok_results acc r)) := by
  intro n
  induction n with
  | zero => intro p r h; simp [loopN] at h
  | succ n ih =>
    intro p r h
    rw [loopN_succ] at h
    simp only [stepOnce] at h
    cases hs : stepPlan env p with
    | execute p' =>
      rw [hs] at h
      obtain ⟨m, hm⟩ := ih p' r h
      refine ⟨m + 1, ?_⟩
      rw [Nat.add_comm, loopN_add]
      rw [show loopN env 1 (.execute (.parallel (p :: ps) acc)) =
          .execute (.parallel (p' :: ps) acc) by
        rw [loopN_succ, loopN_zero]; simp only [stepOnce]; rw [stepPlan, hs]]
      exact hm
    | ret w =>
      rw [hs, loopN_ret] at h
      cases h
      refine ⟨1, ?_⟩
      rw [loopN_succ, loopN_zero]
      simp only [stepOnce]
      rw [stepPlan, hs]
    | error e =>
      rw [hs, loopN_error] at h
      exact absurd h (by simp)

theorem flatten_singletons {α : Type} (xs : List α) :
    (xs.map (fun x => [x])).flatten = xs := by
  induction xs with
  | nil => rfl
  | cons x xs ih => simp [ih]

theorem par_reaches (env : GroundedEnv) {α : Type} (f : α → Plan)
    (g : α → List (Atom × Bindings)) :
    ∀ (xs : List α) (acc : List (Atom × Bindings)),
    (∀ x ∈ xs, ∃ n, loopN env n (.execute (f x)) = .ret (.ok (g x))) →
    ∃ m, loopN env m (.execute (.parallel (xs.map f) (.ok acc))) =
      .ret (.ok (acc ++ (xs.map g).flatten)) := by
  intro xs
  induction xs with
  | nil =>
    intro acc _
    refine ⟨1, ?_⟩
    rw [loopN_succ, loopN_zero]
    simp only [stepOnce, List.map_nil]
    rw [stepPlan]
    simp
  | cons x xs ih =>
    intro acc h
    obtain ⟨n, hn⟩ := h x (by simp)
    obtain ⟨m1, hm1⟩ := par_step env (xs.map f) (.ok acc) n (f x) (.ok (g x)) hn
    obtain ⟨m2, hm2⟩ := ih (acc ++ g x) (fun y hy => h y (List.mem_cons_of_mem _ hy))
    refine ⟨m1 + m2, ?_⟩
    rw [loopN_add]
    rw [List.map_cons, hm1]
    rw [show merge_ok_results (.ok acc) (.ok (g x)) = .ok (acc ++ g x) from rfl]
    rw [hm2]
    simp

theorem or_default_nonexpr (env : GroundedEnv) (s : GroundingSpace) (a : Atom)
    (h : isExprB a = false) :
    loopN env 2 (.execute (.apply (.interpretOrDefault s a []))) = .ret (.ok [(a, [])]) := by
  cases a with
  | Expression cs => simp [isExprB] at h
  | Symbol x => rfl
  | Variable x => rfl
  | Grounded i d => rfl

theorem listVars_nil_of {cs : List Atom} (h : listVars cs = []) :
    ∀ a ∈ cs, atomVars a = [] := by
  induction cs with
  | nil => intro a ha; cases ha
  | cons c cs ih =>
    rw [listVars] at h
    have hc := List.append_eq_nil.mp h
    intro a ha
    rcases List.mem_cons.mp ha with h' | h'
    · subst h'; exact hc.1
    · exact ih hc.2 a h'

theorem mergeB_nil_left : mergeB [] [] = some [] := rfl

theorem matchLists_refl_of (cs : List Atom)
    (h : ∀ a ∈ cs, matchAtoms a a = some ([], [])) :
    matchLists cs cs = some ([], []) := by
  induction cs with
  | nil => rfl
  | cons c cs ih =>
    rw [matchLists, h c (by simp), ih (fun a ha => h a (List.mem_cons_of_mem _ ha))]
    rfl

theorem matchAtoms_ground_refl : ∀ a, atomVars a = [] → matchAtoms a a = some ([], []) := by
  intro a
  induction a using Atom.myInduction with
  | hs s => intro _; simp [matchAtoms]
  | hg i d => intro _; simp [matchAtoms]
  | hv v => intro h; rw [atomVars] at h; cases h
  | he cs ih =>
    intro h
    rw [atomVars] at h
    rw [matchAtoms]
    exact matchLists_refl_of cs (fun a ha => ih a ha (listVars_nil_of h a ha))

theorem match_rule_probe (head ri : Atom) (hg : atomVars head = []) :
    matchAtoms (mkRule head ri) (match_probe head) =
      some ([], [(matchProbeVar, ri)]) := by
  rw [mkRule, match_probe, matchAtoms]
  rw [matchLists]
  rw [show matchAtoms (.Symbol "=") (.Symbol "=") = some ([], []) from rfl]
  rw [matchLists]
  rw [matchAtoms_ground_refl head hg]
  rw [matchLists]
  rw [show matchAtoms ri (.Variable matchProbeVar) = some ([], [(matchProbeVar, ri)]) by
    cases ri <;> rfl]
  rfl

theorem query_rules (head : Atom) (hg : atomVars head = []) (rs : List Atom) :
    GroundingSpace.query ⟨rs.map (mkRule head)⟩ (match_probe head) =
      rs.map (fun ri => [(matchProbeVar, ri)]) := by
  induction rs with
  | nil => rfl
  | cons r rs ih =>
    simp only [GroundingSpace.query, List.map_cons, List.filterMap_cons] at ih ⊢
    rw [match_rule_probe head r hg]
    rw [ih]
    rfl

theorem matchResults_cons_single (r : Atom) (rest : List Bindings) :
    matchResults ([(matchProbeVar, r)] :: rest) [] =
      (apply_bindings_to_atom r [], ([] : Bindings)) :: matchResults rest [] := rfl

theorem matchResults_rules (rs : List Atom) :
    matchResults (rs.map (fun ri => [(matchProbeVar, ri)])) [] =
      rs.map (fun ri => (ri, [])) := by
  induction rs with
  | nil => rfl
  | cons r rs ih =>
    rw [List.map_cons, matchResults_cons_single, apply_bindings_to_atom_empty, ih, List.map_cons]

theorem match_op_rules (head : Atom) (rs : List Atom) (hg : atomVars head = [])
    (hne : rs ≠ []) :
    match_op ⟨rs.map (mkRule head)⟩ head [] =
      .ret (.ok (rs.map (fun ri => (ri, [])))) := by
  have hall : ∀ (l : List Atom), (l.map (fun ri => ([(matchProbeVar, ri)] : Bindings))).all
      (fun b => (lookupB b matchProbeVar).isSome) = true := by
    intro l
    induction l with
    | nil => rfl
    | cons x xs ih =>
      simp only [List.map_cons, List.all_cons]
      rw [ih]
      rfl
  have hemp : (rs.map (fun ri => (ri, ([] : Bindings)))).isEmpty = false := by
    cases rs with
    | nil => exact absurd rfl hne
    | cons r rs => rfl
  rw [match_op, query_rules head hg rs]
  rw [matchOpFrom]
  simp only [matchResults_rules, hall rs, hemp]
  simp

theorem interpret_plain_step (env : GroundedEnv) (space : GroundingSpace) (cs : List Atom)
    (b : Bindings) (hp : is_plain cs = true) :
    loopN env 1 (.execute (.apply (.interpret space (.Expression cs) b))) =
      .execute (.apply (.interpretReducted space (.Expression cs) b)) := by
  rw [loopN_succ, loopN_zero]
  show interpret_op space (.Expression cs) b = _
  rw [interpret_op]
  simp [hp]

theorem interpret_reducted_match_step (env : GroundedEnv) (space : GroundingSpace)
    (cs : List Atom) (hng : is_grounded cs = false) :
    loopN env 1 (.execute (.apply (.interpretReducted space (.Expression cs) []))) =
      .execute (.seq (.apply (.matchOp space (.Expression cs) []))
                     (.interpretResultsFurther space)) := by
  rw [loopN_succ, loopN_zero]
  show interpret_reducted_op space (.Expression cs) [] = _
  rw [interpret_reducted_op]
  rw [apply_bindings_to_atom_empty]
  simp [hng]

theorem init_step (env : GroundedEnv) (space : GroundingSpace) (a : Atom) :
    loopN env 1 (interpret_init space a) =
      .execute (.orp (.apply (.interpret space a []))
                     (.ret (.ok [(a, [])]))) := by
  rw [loopN_succ, loopN_zero]
  show interpret_or_default_op space a [] = _
  rw [interpret_or_default_op]
  rw [apply_bindings_to_atom_empty]

/-- C1 (counterexample): the claim is false as stated, because it puts no
shape condition on `head`.  For the knowledge base `{(= A B)}` with the
symbol head `A`, `interpret` returns `Ok [A]` (a non-expression atom is
returned unchanged without consulting the knowledge base), not `Ok [B]` as
the claim demands; the second conjunct shows `Ok [A]` is the only result the
driver can ever produce on this input, at any fuel. -/
theorem C1_counterexample :
    interpret errEnv 2 ⟨[mkRule (.Symbol "A") (.Symbol "B")]⟩ (.Symbol "A") =
      some (.ok [.Symbol "A"]) ∧
    (∀ fuel r, interpret errEnv fuel ⟨[mkRule (.Symbol "A") (.Symbol "B")]⟩ (.Symbol "A") =
      some r → r = .ok [.Symbol "A"]) := by
  have hterm : loopN errEnv 2 (interpret_init ⟨[mkRule (.Symbol "A") (.Symbol "B")]⟩
      (.Symbol "A")) = .ret (.ok [(.Symbol "A", [])]) := rfl
  constructor
  · rfl
  · intro fuel r h
    match fuel with
    | 0 => simp [interpret, loopN, interpret_init] at h
    | 1 =>
      simp [interpret] at h
      rw [show loopN errEnv 1 (interpret_init
        ⟨[mkRule (.Symbol "A") (.Symbol "B")]⟩ (.Symbol "A")) =
        .execute (.orp (.apply (.interpret ⟨[mkRule (.Symbol "A") (.Symbol "B")]⟩
          (.Symbol "A") [])) (.ret (.ok [(.Symbol "A", [])]))) from rfl] at h
      simp at h
    | (n + 2) =>
      have : loopN errEnv (2 + n) (interpret_init ⟨[mkRule (.Symbol "A") (.Symbol "B")]⟩
          (.Symbol "A")) = .ret (.ok [(.Symbol "A", [])]) :=
        loopN_ret_stable errEnv hterm n
      rw [show n + 2 = 2 + n by omega] at h
      rw [interpret, this] at h
      simp at h
      exact h.symm

/-- C1 (amended): for a knowledge base containing exactly the equalities
`(= head r1) ... (= head rn)` added in that order, where `head` is a
variable-free plain expression whose first child is not a grounded atom,
each `ri` is a non-expression atom and `n ≥ 1`, `interpret` terminates and
returns `Ok` with exactly the list `[r1, ..., rn]`: every right-hand side
with its multiplicity, in the knowledge base's insertion order. -/
theorem C1_amended_match_all (env : GroundedEnv) (cs : List Atom) (rs : List Atom)
    (hg : atomVars (.Expression cs) = [])
    (hp : is_plain cs = true)
    (hng : is_grounded cs = false)
    (hne : rs ≠ [])
    (hrs : ∀ r ∈ rs, isExprB r = false) :
    ∃ fuel, interpret env fuel ⟨rs.map (mkRule (.Expression cs))⟩ (.Expression cs) =
      some (.ok rs) := by
  have hmatch : loopN env 1 (.execute (.apply
      (.matchOp ⟨rs.map (mkRule (.Expression cs))⟩ (.Expression cs) []))) =
      .ret (.ok (rs.map (fun ri => (ri, [])))) :=
    match_op_rules (.Expression cs) rs hg hne
  obtain ⟨m1, hm1⟩ := seq_ret env (.interpretResultsFurther ⟨rs.map (mkRule (.Expression cs))⟩)
    1 (.apply (.matchOp ⟨rs.map (mkRule (.Expression cs))⟩ (.Expression cs) []))
    (.ok (rs.map (fun ri => (ri, [])))) hmatch
  have hper : ∀ p ∈ rs.map (fun ri => (ri, ([] : Bindings))), ∃ n,
      loopN env n (.execute (Plan.apply
        (.interpretOrDefault ⟨rs.map (mkRule (.Expression cs))⟩ p.1 p.2))) =
      .ret (.ok [p]) := by
    intro p hpm
    obtain ⟨ri, hri, hpe⟩ := List.mem_map.mp hpm
    subst hpe
    exact ⟨2, or_default_nonexpr env ⟨rs.map (mkRule (.Expression cs))⟩ ri (hrs ri hri)⟩
  obtain ⟨m2, hm2⟩ := par_reaches env
    (fun p => Plan.apply (.interpretOrDefault ⟨rs.map (mkRule (.Expression cs))⟩ p.1 p.2))
    (fun p => [p]) (rs.map (fun ri => (ri, []))) [] hper
  rw [flatten_singletons, List.nil_append] at hm2
  have hseqpar : loopN env (m1 + m2) (.execute (.seq
      (.apply (.matchOp ⟨rs.map (mkRule (.Expression cs))⟩ (.Expression cs) []))
      (.interpretResultsFurther ⟨rs.map (mkRule (.Expression cs))⟩))) =
      .ret (.ok (rs.map (fun ri => (ri, [])))) := by
    rw [loopN_add, hm1]
    rw [show evalPOp (.interpretResultsFurther ⟨rs.map (mkRule (.Expression cs))⟩)
        (.ok (rs.map (fun ri => (ri, [])))) =
      .execute (.parallel ((rs.map (fun ri => (ri, ([] : Bindings)))).map
        (fun p => Plan.apply (.interpretOrDefault ⟨rs.map (mkRule (.Expression cs))⟩ p.1 p.2)))
        (.ok [])) from rfl]
    exact hm2
  have hinner : loopN env (1 + 1 + (m1 + m2)) (.execute (.apply
      (.interpret ⟨rs.map (mkRule (.Expression cs))⟩ (.Expression cs) []))) =
      .ret (.ok (rs.map (fun ri => (ri, [])))) := by
    rw [loopN_add]
    rw [loopN_add env 1 1]
    rw [interpret_plain_step env _ cs [] hp]
    rw [interpret_reducted_match_step env _ cs hng]
    exact hseqpar
  have horp := orp_ret env (.ret (.ok [((.Expression cs), [])])) (1 + 1 + (m1 + m2))
    (.apply (.interpret ⟨rs.map (mkRule (.Expression cs))⟩ (.Expression cs) []))
    (.ok (rs.map (fun ri => (ri, [])))) hinner
  refine ⟨1 + (1 + 1 + (m1 + m2)), ?_⟩
  rw [interpret]
  rw [loopN_add]
  rw [init_step env _ (.Expression cs)]
  rw [horp]
  simp
  exact List.map_id rs


/-- C1 (witness): the amended claim instantiated at the source's own
match-all test: KB `{(= (color) blue), (= (color) red), (= (color) green)}`,
query `(color)`, result `[blue, red, green]`. -/
theorem C1_amended_match_all_witness :
    (atomVars (.Expression [.Symbol "color"]) = [] ∧
     is_plain [.Symbol "color"] = true ∧
     is_grounded [.Symbol "color"] = false ∧
     ([.Symbol "blue", .Symbol "red", .Symbol "green"] : List Atom) ≠ [] ∧
     (∀ r ∈ ([.Symbol "blue", .Symbol "red", .Symbol "green"] : List Atom),
       isExprB r = false)) ∧
    ∃ fuel, interpret errEnv fuel
      ⟨([.Symbol "blue", .Symbol "red", .Symbol "green"] : List Atom).map
        (mkRule (.Expression [.Symbol "color"]))⟩
      (.Expression [.Symbol "color"]) =
      some (.ok [.Symbol "blue", .Symbol "red", .Symbol "green"]) :=
  ⟨⟨rfl, rfl, rfl, by simp, by decide⟩,
   C1_amended_match_all errEnv [.Symbol "color"]
     [.Symbol "blue", .Symbol "red", .Symbol "green"]
     rfl rfl rfl (by simp) (by decide)⟩

/-- C2: the plan produced by `interpret_or_default` never terminates with an
`Error` result, at any number of driver ticks; and whenever the inner
`interpret` plan terminates with an error, the overall result is the
singleton collection containing the input atom with the bindings applied
once, paired with those bindings. -/
theorem C2_interpret_or_default_no_error (env : GroundedEnv) (s : GroundingSpace)
    (a : Atom) (b : Bindings) :
    (∀ n m, loopN env n (interpret_or_default_op s a b) ≠ .error m) ∧
    (∀ n e, loopN env n (.execute (.apply
        (.interpret s (apply_bindings_to_atom a b) b))) = .error e →
      ∃ k, loopN env k (interpret_or_default_op s a b) =
        .ret (.ok [(apply_bindings_to_atom a b, b)])) := by
  have hstart : interpret_or_default_op s a b =
      .execute (.orp (.apply (.interpret s (apply_bindings_to_atom a b) b))
        (.ret (.ok [(apply_bindings_to_atom a b, b)]))) := rfl
  have key : ∀ (n : Nat) (t : SR),
      ((∃ p, t = .execute (.orp p (.ret (.ok [(apply_bindings_to_atom a b, b)])))) ∨
       (∃ v, t = .ret v)) →
      ((∃ p, loopN env n t =
          .execute (.orp p (.ret (.ok [(apply_bindings_to_atom a b, b)])))) ∨
       (∃ v, loopN env n t = .ret v)) := by
    intro n
    induction n with
    | zero => intro t ht; exact ht
    | succ n ih =>
      intro t ht
      rw [loopN_succ]
      rcases ht with ⟨p, rfl⟩ | ⟨v, rfl⟩
      · simp only [stepOnce]
        cases hs : stepPlan env p with
        | execute p' =>
          refine ih _ ?_
          left
          refine ⟨p', ?_⟩
          rw [stepPlan, hs]
        | ret w =>
          refine ih _ ?_
          right
          refine ⟨w, ?_⟩
          rw [stepPlan, hs]
        | error e =>
          refine ih _ ?_
          right
          refine ⟨.ok [(apply_bindings_to_atom a b, b)], ?_⟩
          rw [stepPlan, hs]
      · exact ih _ (Or.inr ⟨v, rfl⟩)
  constructor
  · intro n m h
    rw [hstart] at h
    rcases key n _ (Or.inl ⟨_, rfl⟩) with ⟨p, hp⟩ | ⟨v, hv⟩
    · rw [h] at hp; cases hp
    · rw [h] at hv; cases hv
  · intro n e h
    obtain ⟨m, hm⟩ := orp_err_fb env (.ret (.ok [(apply_bindings_to_atom a b, b)])) n _ e h
    rw [loopN_zero] at hm
    exact ⟨m, by rw [hstart]; exact hm⟩

/-- C2 (witness): on the empty knowledge base and the plain expression
`(f)`, the inner `interpret` plan errors with `"Match is not found"` after
three ticks, and `interpret_or_default` then reaches the singleton default
result. -/
theorem C2_interpret_or_default_no_error_witness :
    (loopN errEnv 3 (.execute (.apply (.interpret ⟨[]⟩
        (apply_bindings_to_atom (.Expression [.Symbol "f"]) []) []))) =
      .error "Match is not found") ∧
    ∃ k, loopN errEnv k (interpret_or_default_op ⟨[]⟩ (.Expression [.Symbol "f"]) []) =
      .ret (.ok [(apply_bindings_to_atom (.Expression [.Symbol "f"]) [], [])]) :=
  ⟨rfl,
   (C2_interpret_or_default_no_error errEnv ⟨[]⟩ (.Expression [.Symbol "f"]) []).2 3
     "Match is not found" rfl⟩

/-- C3 (counterexample): the claim fails at the `execute` rule boundary:
`execute_op` pairs the grounded operation's result atoms with the incoming
bindings without applying them, so with a grounded operation returning the
variable atom `$v` under bindings `{v -> c}` the returned pair violates
`apply(a, B) = a`. -/
theorem C3_counterexample :
    execute_op varEnv (.Expression [.Grounded 0 "op"]) [("v", .Symbol "c")] =
      .ret (.ok [(.Variable "v", [("v", .Symbol "c")])]) ∧
    apply_bindings_to_atom (.Variable "v") [("v", .Symbol "c")] ≠ .Variable "v" := by
  constructor
  · rfl
  · intro h
    rw [show apply_bindings_to_atom (.Variable "v") [("v", .Symbol "c")] =
        .Symbol "c" from rfl] at h
    cases h

/-- C3 (amended): at the `interpret_or_default` rule boundary the fallback
pair `(a', B)` carries `a' = apply(a, B)`, and `apply(a', B) = a'` holds
whenever `B` satisfies the spec's bindings invariant (no mapped atom
mentions a variable that is itself a key); the invariant does not hold at
the `execute` boundary, whose pairs carry the grounded results unmodified. -/
theorem C3_amended_bindings_consistency (s : GroundingSpace) (a : Atom) (b : Bindings)
    (hb : rangeUnmapped b) :
    interpret_or_default_op s a b =
      .execute (.orp (.apply (.interpret s (apply_bindings_to_atom a b) b))
        (.ret (.ok [(apply_bindings_to_atom a b, b)]))) ∧
    apply_bindings_to_atom (apply_bindings_to_atom a b) b = apply_bindings_to_atom a b :=
  ⟨rfl, apply_bindings_idem hb a⟩

/-- C3 (witness): the amended statement at the bindings `{v -> c}`, which
satisfy the invariant. -/
theorem C3_amended_bindings_consistency_witness :
    rangeUnmapped [("v", .Symbol "c")] ∧
    apply_bindings_to_atom (apply_bindings_to_atom (.Variable "v") [("v", .Symbol "c")])
        [("v", .Symbol "c")] =
      apply_bindings_to_atom (.Variable "v") [("v", .Symbol "c")] :=
  ⟨by intro p hp v hv; rw [List.mem_singleton] at hp; subst hp; simp [atomVars] at hv,
   (C3_amended_bindings_consistency ⟨[]⟩ (.Variable "v") [("v", .Symbol "c")]
     (by intro p hp v hv; rw [List.mem_singleton] at hp; subst hp; simp [atomVars] at hv)).2⟩

/-- C4 (counterexample): the probe variable is the fixed name "X", not a
fresh one: for the queried expression `$X` the probe is `(= $X $X)`, and the
probe's variable occurs in the queried expression, contradicting the claimed
freshness. -/
theorem C4_counterexample :
    match_probe (.Variable "X") =
      .Expression [.Symbol "=", .Variable "X", .Variable "X"] ∧
    matchProbeVar ∈ atomVars (.Variable "X") :=
  ⟨rfl, by decide⟩

/-- C4 (amended): `match` queries the knowledge base with the probe
`(= expr X)` where `X` is the fixed variable named "X" (with no freshness
guarantee), and processes exactly the bindings that query returns. -/
theorem C4_amended_probe (s : GroundingSpace) (e : Atom) (b : Bindings) :
    match_op s e b = matchOpFrom (GroundingSpace.query s (match_probe e)) b ∧
    match_probe e = .Expression [.Symbol "=", e, .Variable "X"] :=
  ⟨rfl, rfl⟩

theorem findSiblingGo_sound (cs : List Atom) (stop : Nat) :
    ∀ (cd idx j : Nat) (a : Atom), findSiblingGo cs stop idx cd = some (j, a) →
      idx ≤ j ∧ j < stop ∧ cs.get? j = some a ∧ isExprB a = true := by
  intro cd
  induction cd with
  | zero => intro idx j a h; rw [findSiblingGo] at h; cases h
  | succ cd ih =>
    intro idx j a h
    rw [findSiblingGo] at h
    by_cases hlt : idx < stop
    · rw [if_pos hlt] at h
      cases hc : cs.get? idx with
      | none => rw [hc] at h; cases h
      | some c =>
        rw [hc] at h
        cases he : isExprB c with
        | false =>
          simp only [he, Bool.false_eq_true, if_false] at h
          obtain ⟨h1, h2, h3, h4⟩ := ih (idx + 1) j a h
          exact ⟨by omega, h2, h3, h4⟩
        | true =>
          simp only [he, if_true] at h
          injection h with h1
          cases h1
          exact ⟨Nat.le_refl _, hlt, hc, he⟩
    · rw [if_neg hlt] at h
      cases h

/-- C5: `reduct_args` selects the skip-last walk if and only if the head
atom's textual rendering equals the string "match", and otherwise selects
the find-next-sibling walk; the skip-last scan (stop = len - 1) never yields
the last child, and both scans yield only immediate children that are
themselves expressions, at or after the scan's starting index. -/
theorem C5_reduct_args_walk (cs : List Atom) (h0 : Atom) (hh : cs.head? = some h0) :
    (reductArgsWalk cs = .skipLast ↔ atomDisplay h0 = "match") ∧
    (atomDisplay h0 ≠ "match" → reductArgsWalk cs = .findNextSibling) ∧
    (∀ idx cd j a, findSiblingGo cs (cs.length - 1) idx cd = some (j, a) →
      j < cs.length - 1 ∧ cs.get? j = some a ∧ isExprB a = true) ∧
    (∀ idx cd j a, findSiblingGo cs cs.length idx cd = some (j, a) →
      idx ≤ j ∧ cs.get? j = some a ∧ isExprB a = true) := by
  refine ⟨?_, ?_, ?_, ?_⟩
  · rw [reductArgsWalk, hh]
    by_cases hd : atomDisplay h0 = "match"
    · simp [hd]
    · simp [hd]
  · intro hd
    rw [reductArgsWalk, hh]
    simp [hd]
  · intro idx cd j a h
    obtain ⟨_, h2, h3, h4⟩ := findSiblingGo_sound cs (cs.length - 1) cd idx j a h
    exact ⟨h2, h3, h4⟩
  · intro idx cd j a h
    obtain ⟨h1, _, h3, h4⟩ := findSiblingGo_sound cs cs.length cd idx j a h
    exact ⟨h1, h3, h4⟩

/-- C5 (witness): the selection at the concrete expression
`((Grounded f) ())`, whose grounded head does not render as "match". -/
theorem C5_reduct_args_walk_witness :
    (([.Grounded 0 "f", .Expression []] : List Atom).head? = some (.Grounded 0 "f")) ∧
    (reductArgsWalk [.Grounded 0 "f", .Expression []] = .skipLast ↔
      atomDisplay (.Grounded 0 "f") = "match") :=
  ⟨rfl, (C5_reduct_args_walk [.Grounded 0 "f", .Expression []] (.Grounded 0 "f") rfl).1⟩

/-- C6 (counterexample): the rewriter does return successful empty
collections: a grounded operation executing to no atoms makes `execute_op`
return `Ok []`, `interpret_results_further` of that empty success builds the
empty fan-out, and the empty fan-out terminates as the empty success. -/
theorem C6_counterexample :
    execute_op nopEnv (.Expression [.Grounded 0 "NOP"]) [] = .ret (.ok []) ∧
    interpret_results_further_op ⟨[]⟩ (.ok []) = .execute (.parallel [] (.ok [])) ∧
    loopN nopEnv 1 (.execute (.parallel [] (.ok []))) = .ret (.ok []) :=
  ⟨rfl, rfl, rfl⟩

/-- C6 (amended): `match_op` never returns an empty successful collection
(the empty match is the error "Match is not found"); the non-emptiness
claim does not extend to `execute_op` or `interpret_results_further_op`,
which forward a grounded operation's possibly empty result as a success. -/
theorem C6_amended_match_nonempty (s : GroundingSpace) (e : Atom) (b : Bindings)
    (l : List (Atom × Bindings)) (h : match_op s e b = .ret (.ok l)) : l ≠ [] := by
  simp only [match_op, matchOpFrom] at h
  split at h
  · split at h
    · exact SR.noConfusion h
    · next hemp =>
      injection h with h1
      injection h1 with h2
      intro hnil
      rw [h2, hnil] at hemp
      exact hemp rfl
  · exact SR.noConfusion h

/-- C6 (witness): a one-rule knowledge base where `match_op` succeeds with
one result, which is indeed non-empty. -/
theorem C6_amended_match_nonempty_witness :
    match_op ⟨[mkRule (.Expression [.Symbol "c"]) (.Symbol "blue")]⟩
      (.Expression [.Symbol "c"]) [] = .ret (.ok [(.Symbol "blue", [])]) ∧
    ([(.Symbol "blue", ([] : Bindings))] : List (Atom × Bindings)) ≠ [] :=
  ⟨rfl, C6_amended_match_nonempty ⟨[mkRule (.Expression [.Symbol "c"]) (.Symbol "blue")]⟩
    (.Expression [.Symbol "c"]) [] [(.Symbol "blue", [])] rfl⟩

/-- C7: `interpret` performs exactly the claimed case split: a plain
expression goes to `interpret_reducted`; a non-plain expression whose first
child is a grounded atom goes to `reduct_args`; any other expression runs
`match` with `reduct_arg_by_arg` as the fallback of an `Or`, feeding the
branches through `interpret_results_further`; a non-expression atom returns
the singleton result. -/
theorem C7_interpret_case_split (s : GroundingSpace) (a : Atom) (b : Bindings) :
    interpret_op s a b = interpretCaseSpec s a b := by
  cases a with
  | Symbol x => rfl
  | Variable x => rfl
  | Grounded i d => rfl
  | Expression cs =>
    simp only [interpret_op, interpretCaseSpec, is_plain]
    by_cases hp : cs.all (fun c => !(isExprB c)) = true
    · rw [if_pos hp, if_pos hp]
    · rw [if_neg hp, if_neg hp]
      cases hh : cs.head? with
      | none => simp [is_grounded, hh]
      | some hd => cases hd <;> simp [is_grounded, hh]

/-- C8: an empty successful reduction inside `interpret_after_arg_reduction`
is the error "NOP special case", and `reduct_arg_by_arg` wraps the reduction
of the focused sub-expression in an `Or` whose fallback re-enters
`reduct_arg_by_arg` at the advanced cursor, so that error makes the cursor
advance to the next position instead of dropping the expression. -/
theorem C8_nop_special_case (s : GroundingSpace) (iter iter' : SubexprStream)
    (arg : Atom) (b : Bindings) (h : iter.next = (iter', some arg)) :
    interpret_after_arg_reduction_op s iter' (.ok []) = .error "NOP special case" ∧
    reduct_arg_by_arg_op s iter b = .execute (.orp
      (.seq (.apply (.interpretReducted s arg b))
            (.interpretAfterArgReduction s iter'))
      (.execute (.apply (.reductArgByArg s iter' b)))) := by
  constructor
  · rfl
  · rw [reduct_arg_by_arg_op, h]

/-- C8 (witness): the statement at a concrete bottom-up cursor over
`(())` whose first step focuses the inner empty expression. -/
theorem C8_nop_special_case_witness :
    (SubexprStream.fromExpr (.Expression [.Expression []]) .bottomUp).next =
      (⟨.Expression [.Expression []], .bottomUp, [1], [0]⟩, some (.Expression [])) ∧
    interpret_after_arg_reduction_op ⟨[]⟩
      ⟨.Expression [.Expression []], .bottomUp, [1], [0]⟩ (.ok []) =
      .error "NOP special case" :=
  ⟨rfl,
   (C8_nop_special_case ⟨[]⟩ (SubexprStream.fromExpr (.Expression [.Expression []]) .bottomUp)
     ⟨.Expression [.Expression []], .bottomUp, [1], [0]⟩ (.Expression []) [] rfl).1⟩

/-- C9: for every atom that is not an expression and every knowledge base,
`interpret` returns `Ok` with exactly the one-element list containing the
atom itself; the driver terminates within two ticks and the result is
stable at any larger fuel. -/
theorem C9_nonexpr_identity (env : GroundedEnv) (s : GroundingSpace) (a : Atom)
    (h : isExprB a = false) :
    interpret env 2 s a = some (.ok [a]) ∧
    ∀ extra, interpret env (2 + extra) s a = some (.ok [a]) := by
  have h2 : loopN env 2 (interpret_init s a) = .ret (.ok [(a, [])]) := by
    rw [show (2 : Nat) = 1 + 1 from rfl, loopN_add, init_step env s a]
    rw [loopN_succ, loopN_zero]
    show stepPlan env (.orp (.apply (.interpret s a [])) (.ret (.ok [(a, [])]))) = _
    rw [stepPlan]
    rw [show stepPlan env (.apply (.interpret s a [])) = .ret (.ok [(a, [])]) from
      interpret_op_nonexpr h s []]
  constructor
  · rw [interpret, h2]
    rfl
  · intro extra
    rw [interpret, loopN_ret_stable env h2 extra]
    rfl

/-- C9 (witness): the symbol `A` on the empty knowledge base. -/
theorem C9_nonexpr_identity_witness :
    isExprB (.Symbol "A") = false ∧
    interpret errEnv 2 ⟨[]⟩ (.Symbol "A") = some (.ok [.Symbol "A"]) :=
  ⟨rfl, (C9_nonexpr_identity errEnv ⟨[]⟩ (.Symbol "A") rfl).1⟩

/-- C10: `interpret_step` is total only on non-terminal inputs: applied to
`Execute(plan)` it returns one step of the plan; applied to an already
terminal `Return` or `Error` the source panics, which the embedding models
by `none`; stepping yields a value exactly when `has_next` holds. -/
theorem C10_interpret_step_partiality (env : GroundedEnv) (s : SR) :
    interpret_step env s = (match s with
      | .execute p => some (stepPlan env p)
      | .ret _ => none
      | .error _ => none) ∧
    ((interpret_step env s).isSome ↔ hasNext s = true) := by
  cases s <;> simp [interpret_step, hasNext]
